import Mathlib

/-!
Verification of the proxytv playlist reconciler and EPG streaming filter
(`provider.go`) against its natural-language specification.

The Go code is shallowly embedded: `playlistLoader` becomes the structure
`PL`, a Go `map[string]int` becomes an association list with unique keys
manipulated through `lookupP` / `setP` / `delP` (Go map write/delete
semantics), `findIndexWithID`'s `-1` becomes `Option Nat`, and the on-error
`break` / `return` paths become `Option`.
-/

namespace ProxyTv

/-- Modelled from the spec: `Track` is declared outside `provider.go`
(spec section 3): display Name, stream URI, Tags (string-keyed map,
accessed with Go's missing-key-yields-"" semantics), and the Raw metadata
line. -/
structure Track where
  name : String
  uri : String
  tags : List (String × String)
  raw : String
deriving DecidableEq

/-- Go map read `track.Tags[k]`: the value, or `""` when the key is absent. -/
def Track.tag (t : Track) (k : String) : String :=
  (t.tags.lookup k).getD ""

/-- Modelled from the spec: `Filter.Type` is one of `id`, `group`, `name`
(spec section 3).  Any other string makes `OnTrack` panic (a fatal
configuration error, spec section 4.1 step 4), so the valid domain is this
inductive. -/
inductive FilterType where
  | id | group | name
deriving DecidableEq

/-- Modelled from the spec: a `Filter` couples a type with a compiled
regular expression; the reconciler only ever asks whether the expression
matches a string (`filter.regexp.Match`), so the expression is embedded as
its matching predicate. -/
structure Filter where
  type : FilterType
  rmatch : String → Bool

/-- Go map write `m[k] = v`: replace the binding if the key is present,
else append a fresh binding. -/
def setP (m : List (String × Nat)) (k : String) (v : Nat) : List (String × Nat) :=
  match m with
  | [] => [(k, v)]
  | (a, b) :: rest => if a = k then (k, v) :: rest else (a, b) :: setP rest k v

/-- Go map delete `delete(m, k)`: remove the binding for `k` (the first one;
keys are unique in every reachable state). -/
def delP (m : List (String × Nat)) (k : String) : List (String × Nat) :=
  match m with
  | [] => []
  | (a, b) :: rest => if a = k then rest else (a, b) :: delP rest k

/-- Go map read with `ok` flag: `v, ok := m[k]`. -/
def lookupP (m : List (String × Nat)) (k : String) : Option Nat :=
  match m with
  | [] => none
  | (a, b) :: rest => if a = k then some b else lookupP rest k

/-- The keys of the priority map are pairwise distinct (true of any Go map). -/
def keysNodup (m : List (String × Nat)) : Prop :=
  (m.map Prod.fst).Nodup

/-- The state of `playlistLoader`: the retained tracks, the name-to-priority
map, and the rendered M3U text.  (`baseAddress` and `filters` are read-only
configuration and are passed as parameters instead.) -/
structure PL where
  tracks : List Track
  priorities : List (String × Nat)
  m3u : String
deriving DecidableEq

/-- The Go `for i := range pl.tracks` search loop: index of the first
element satisfying `p`, `-1` (here `none`) when there is none. -/
def findIdxA (p : Track → Bool) : List Track → Option Nat
  | [] => none
  | t :: ts => if p t then some 0 else (findIdxA p ts).map (· + 1)

/-- `playlistLoader.findIndexWithID`: first retained index sharing the
track's non-empty `tvg-id`, `none` when the id is empty or unmatched. -/
def findIndexWithID (tracks : List Track) (track : Track) : Option Nat :=
  let id := track.tag "tvg-id"
  if id = "" then none
  else findIdxA (fun u => u.tag "tvg-id" = id) tracks

/-- `strings.Contains(s, "HD")`. -/
def containsHD (s : String) : Bool :=
  s.toList.tails.any (fun t => ['H', 'D'].isPrefixOf t)

/-- `playlistLoader.processTrack`.  Mirrors the Go control flow: admit when
the name is new or the priority strictly improves; on an id collision
replace in place only for an "HD" name (deleting the replaced track's name
from the priority map first), otherwise return with no state change; append
only when the name was unseen; finally record the priority. -/
def processTrack (pl : PL) (track : Track) (priority : Nat) : PL :=
  let name := track.name
  match lookupP pl.priorities name with
  | none =>
    match findIndexWithID pl.tracks track with
    | some idx =>
      if containsHD track.name then
        { pl with
          priorities := setP (delP pl.priorities ((pl.tracks.getD idx track).name)) name priority,
          tracks := pl.tracks.set idx track }
      else pl
    | none =>
      { pl with tracks := pl.tracks ++ [track], priorities := setP pl.priorities name priority }
  | some existingPriority =>
    if priority < existingPriority then
      match findIndexWithID pl.tracks track with
      | some idx =>
        if containsHD track.name then
          { pl with
            priorities := setP (delP pl.priorities ((pl.tracks.getD idx track).name)) name priority,
            tracks := pl.tracks.set idx track }
        else pl
      | none =>
        { pl with priorities := setP pl.priorities name priority }
    else pl

/-- The tag field a filter type matches against (`OnTrack`'s switch). -/
def filterField : FilterType → String
  | .id => "tvg-id"
  | .group => "group-title"
  | .name => "tvg-name"

/-- `playlistLoader.OnTrack`: with no filters, admit at priority 0;
otherwise run every filter in order, admitting once per filter whose field
is non-empty on the track and whose pattern matches it, at the filter's
index as priority. -/
def OnTrack (filters : List Filter) (pl : PL) (track : Track) : PL :=
  if filters.isEmpty then processTrack pl track 0
  else
    filters.enum.foldl
      (fun acc p =>
        let val := track.tag (filterField p.2.type)
        if val = "" then acc
        else if p.2.rmatch val then processTrack acc track p.1 else acc)
      pl

/-- `playlistLoader.OnPlaylistStart`: reset the text to the header line. -/
def OnPlaylistStart (pl : PL) : PL :=
  { pl with m3u := "#EXTM3U\n" }

/-- The comparator handed to `sort.SliceStable` in `OnPlaylistEnd`,
transcribed case by case. -/
def goLess (prios : List (String × Nat)) (a b : Track) : Bool :=
  match lookupP prios a.name, lookupP prios b.name with
  | none, none => false
  | none, some _ => false
  | some _, none => true
  | some pa, some pb => decide (pa < pb)

/-- Stable insertion: place `x` before the first element it compares
strictly less than, i.e. after every earlier element it ties with. -/
def insertT (less : Track → Track → Bool) (x : Track) : List Track → List Track
  | [] => [x]
  | y :: ys => if less x y then x :: y :: ys else y :: insertT less x ys

/-- `sort.SliceStable(pl.tracks, less)`.  The comparator is a strict weak
order (it compares the keys `(matched? , priority)` lexicographically), so
the stable-sorted result is unique and equals stable insertion sort. -/
def sortTracks (prios : List (String × Nat)) (ts : List Track) : List Track :=
  ts.foldl (fun acc t => insertT (goLess prios) t acc) []

/-- Go's `\s` character class (RE2 Perl class: tab, newline, form feed,
carriage return, space). -/
def isSpaceGo (c : Char) : Bool :=
  c = ' ' || c = '\t' || c = '\n' || c = '\x0c' || c = '\r'

/-- One attempted match of the regular expression `xui-id="\{[^"]*\}"\s*`
anchored at the head of `cs`; returns the remainder after the match.  The
character class `[^"]*` cannot cross a quote, so the match succeeds exactly
when the literal prefix `xui-id="{` is followed by quote-free text whose
last character is `}` and then the closing quote; the trailing `\s*` is
greedy. -/
def matchXui (cs : List Char) : Option (List Char) :=
  if ("xui-id=\"\x7b".toList).isPrefixOf cs then
    let rest := cs.drop 9
    let seg := rest.takeWhile (fun c => c ≠ '"')
    match rest.dropWhile (fun c => c ≠ '"') with
    | _ :: tail =>
      if seg ≠ [] ∧ seg.getLast? = some '}' then some (tail.dropWhile isSpaceGo)
      else none
    | [] => none
  else none

/-- `reXuiid.ReplaceAllString(raw, "")`: scan left to right, deleting each
leftmost non-overlapping match and resuming after it (with fuel; every step
consumes at least one character, so `cs.length` fuel always suffices). -/
def stripXuiFuel : Nat → List Char → List Char
  | 0, cs => cs
  | _ + 1, [] => []
  | n + 1, c :: cs =>
    match matchXui (c :: cs) with
    | some rest => stripXuiFuel n rest
    | none => c :: stripXuiFuel n cs

/-- Replace every match of the `xui-id` pattern by the empty string. -/
def stripXuiStr (s : String) : String :=
  ⟨stripXuiFuel s.toList.length s.toList⟩

/-- Does some suffix of `cs` start with a match of the `xui-id` pattern? -/
def hasXuiMatch : List Char → Bool
  | [] => false
  | c :: cs => (matchXui (c :: cs)).isSome || hasXuiMatch cs

/-- `playlistLoader.OnPlaylistEnd`: stable-sort the retained tracks by the
priority comparator, then append one `raw`/URI line pair per track to the
M3U text, stripping `xui-id="{...}"` fragments from the raw line and
rewriting the URI to `http://<base>/channel/<index>` when a base address is
configured. -/
def OnPlaylistEnd (baseAddress : String) (pl : PL) : PL :=
  let sorted := sortTracks pl.priorities pl.tracks
  let rewriteURL := decide (0 < baseAddress.length)
  let m3u := sorted.enum.foldl
    (fun acc p =>
      let uri := if rewriteURL then "http://" ++ baseAddress ++ "/channel/" ++ toString p.1
                 else p.2.uri
      acc ++ stripXuiStr p.2.raw ++ "\n" ++ uri ++ "\n")
    pl.m3u
  { pl with tracks := sorted, m3u := m3u }

/-- `newPlaylistLoader`: empty tracks, empty priority map, empty text. -/
def newPlaylistLoader : PL :=
  { tracks := [], priorities := [], m3u := "" }

/-- Modelled from the spec: `loadM3u` (declared outside `provider.go`)
parses the playlist bytes and drives the callbacks — `OnPlaylistStart`,
`OnTrack` per parsed track in order, `OnPlaylistEnd` (spec section 4.1
contract `reconcile`).  Its input here is the already-parsed track
sequence. -/
def runReconcile (baseAddress : String) (filters : List Filter) (inputs : List Track) : PL :=
  OnPlaylistEnd baseAddress (inputs.foldl (OnTrack filters) (OnPlaylistStart newPlaylistLoader))

/-- The reconciler state right before `OnPlaylistEnd` runs. -/
def runPre (filters : List Filter) (inputs : List Track) : PL :=
  inputs.foldl (OnTrack filters) (OnPlaylistStart newPlaylistLoader)

/-- An `xmltv.Programme` as the streaming filter sees it: the channel
reference attribute plus the rest of the decoded element, opaque here. -/
structure Programme where
  channel : String
  body : String
deriving DecidableEq

/-- An `xmltv.Channel`: its ID attribute plus the rest of the element. -/
structure Channel where
  id : String
  body : String
deriving DecidableEq

/-- One step of `xml.Decoder` progress as `loadXMLTv` consumes it: the `tv`
root start element with its header attributes, a fully-decoded `programme`
or `channel` element, a `programme`/`channel` whose `DecodeElement` fails,
or any other token (ignored).  The stream ends at the end of the list
(`decoder.Token()` error breaks the loop). -/
inductive EpgItem where
  | tvTag (date srcInfoURL srcInfoName srcDataURL genInfoName genInfoURL : String)
  | programme (p : Programme)
  | programmeBad
  | channel (c : Channel)
  | channelBad
  | other
deriving DecidableEq

/-- The `xmltv.TV` value `loadXMLTv` assembles. -/
structure TVData where
  date : String := ""
  sourceInfoURL : String := ""
  sourceInfoName : String := ""
  sourceDataURL : String := ""
  generatorInfoName : String := ""
  generatorInfoURL : String := ""
  channels : List Channel := []
  programmes : List Programme := []
deriving DecidableEq

/-- The retained-channel set `loadXMLTv` builds from the playlist: a Go
`map[string]bool` holding `true` for the non-empty `tvg-id` of each track;
a lookup yields `true` exactly for those ids. -/
def channelMem (tracks : List Track) (id : String) : Bool :=
  tracks.any (fun t => t.tag "tvg-id" ≠ "" && t.tag "tvg-id" = id)

/-- One iteration of `loadXMLTv`'s token loop over the state
`(tv, totalChannelCount, totalProgrammeCount)`; `none` is the early
`return nil, err` on a failed `DecodeElement`. -/
def epgStep (inSet : String → Bool) (st : TVData × Nat × Nat) (item : EpgItem) :
    Option (TVData × Nat × Nat) :=
  match item with
  | .tvTag a1 a2 a3 a4 a5 a6 =>
    some ({ st.1 with
             date := a1, sourceInfoURL := a2, sourceInfoName := a3,
             sourceDataURL := a4, generatorInfoName := a5, generatorInfoURL := a6 },
          st.2.1, st.2.2)
  | .programme p =>
    some (if inSet p.channel then { st.1 with programmes := st.1.programmes ++ [p] } else st.1,
          st.2.1, st.2.2 + 1)
  | .programmeBad => none
  | .channel c =>
    some (if inSet c.id then { st.1 with channels := st.1.channels ++ [c] } else st.1,
          st.2.1 + 1, st.2.2)
  | .channelBad => none
  | .other => some st

/-- `loadXMLTv`'s token loop. -/
def epgLoop (inSet : String → Bool) (st : TVData × Nat × Nat) :
    List EpgItem → Option (TVData × Nat × Nat)
  | [] => some st
  | item :: items =>
    match epgStep inSet st item with
    | none => none
    | some st' => epgLoop inSet st' items

/-- `Provider.loadXMLTv`: build the retained-channel set from the playlist
tracks, then stream the EPG tokens, keeping a channel/programme exactly
when its id/channel reference is in the set and counting every one seen. -/
def loadXMLTv (tracks : List Track) (items : List EpgItem) : Option (TVData × Nat × Nat) :=
  epgLoop (channelMem tracks) ({}, 0, 0) items

/-- The programme elements of the token stream, in order. -/
def progsOf (items : List EpgItem) : List Programme :=
  items.filterMap (fun i => match i with | .programme p => some p | _ => none)

/-- The channel elements of the token stream, in order. -/
def chansOf (items : List EpgItem) : List Channel :=
  items.filterMap (fun i => match i with | .channel c => some c | _ => none)

/-- The `Provider` fields `Refresh` reads and writes.  `playlist`, `epg` and
`epgData` are nil-able Go pointers/slices, hence `Option`; `lastRefresh` is
a `time.Time`, abstracted to the `Nat` supplied with each cycle. -/
structure ProviderState where
  baseAddress : String
  filters : List Filter
  playlist : Option PL
  epg : Option TVData
  epgData : Option String
  lastRefresh : Nat

/-- Modelled from the spec: one cycle's external inputs.  `iptv` is the
retrieved-and-parsed playlist (`loadReader` + `loadM3u`; `none` covers a
retrieval or parse failure), `epgItems` the retrieved EPG token stream
(`none` is a retrieval failure), `now` the cycle's clock reading. -/
structure RefreshInput where
  iptv : Option (List Track)
  epgItems : Option (List EpgItem)
  now : Nat

/-- Modelled from the spec: `xml.Marshal` of the reduced document — some
total serialization of the retained elements (its exact text is irrelevant
to every claim). -/
def marshalTV (tv : TVData) : String :=
  String.join (tv.channels.map Channel.body) ++ String.join (tv.programmes.map Programme.body)

/-- The fixed declaration + DOCTYPE prefix `Refresh` prepends. -/
def xmlHeader : String :=
  "<?xml version=\"1.0\" encoding=\"UTF-8\"?><!DOCTYPE tv SYSTEM \"xmltv.dtd\">"

/-- `Provider.Refresh`, step for step: fetch/parse the playlist (errors
return with the state untouched), then assign `p.playlist` immediately;
fetch the EPG (an error now returns with the new playlist already
published); run `loadXMLTv`, assigning its result to `p.epg` even when it
is the error `nil`; marshal; only then set `epgData` and `lastRefresh`.
The `Bool` is `true` when the cycle returned no error. -/
def Refresh (p : ProviderState) (inp : RefreshInput) : ProviderState × Bool :=
  match inp.iptv with
  | none => (p, false)
  | some tracks =>
    let pl := runReconcile p.baseAddress p.filters tracks
    let p1 := { p with playlist := some pl }
    match inp.epgItems with
    | none => (p1, false)
    | some items =>
      match loadXMLTv pl.tracks items with
      | none => ({ p1 with epg := none }, false)
      | some out =>
        let p2 := { p1 with epg := some out.1 }
        ({ p2 with epgData := some (xmlHeader ++ marshalTV out.1), lastRefresh := inp.now }, true)

/-- The package-level `trackNotFound` sentinel (`Track{}`). -/
def trackNotFound : Track :=
  { name := "", uri := "", tags := [], raw := "" }

/-- `Provider.GetTrack`: the guard only tests `idx >= len(tracks)`; a
negative index reaches the slice access and panics (`none` here). -/
def GetTrack (tracks : List Track) (idx : Int) : Option Track :=
  if (tracks.length : Int) ≤ idx then some trackNotFound
  else if 0 ≤ idx then tracks.get? idx.toNat
  else none

/-! ## Lemmas about the priority-map operations -/

theorem lookupP_setP_self (m : List (String × Nat)) (k : String) (v : Nat) :
    lookupP (setP m k v) k = some v := by
  induction m with
  | nil => simp [setP, lookupP]
  | cons hd tl ih =>
    obtain ⟨a, b⟩ := hd
    by_cases h : a = k <;> simp [setP, lookupP, h, ih]

theorem lookupP_setP_ne (m : List (String × Nat)) {k k' : String} (v : Nat) (h : k' ≠ k) :
    lookupP (setP m k v) k' = lookupP m k' := by
  induction m with
  | nil => simp [setP, lookupP, Ne.symm h]
  | cons hd tl ih =>
    obtain ⟨a, b⟩ := hd
    by_cases ha : a = k
    · simp [setP, lookupP, ha, Ne.symm h]
    · simp [setP, lookupP, ha, ih]

theorem lookupP_delP_ne (m : List (String × Nat)) {k k' : String} (h : k' ≠ k) :
    lookupP (delP m k) k' = lookupP m k' := by
  induction m with
  | nil => simp [delP]
  | cons hd tl ih =>
    obtain ⟨a, b⟩ := hd
    by_cases ha : a = k
    · simp [delP, lookupP, ha, Ne.symm h]
    · simp [delP, lookupP, ha, ih]

theorem lookupP_eq_none_of_not_mem {m : List (String × Nat)} {k : String}
    (h : k ∉ m.map Prod.fst) : lookupP m k = none := by
  induction m with
  | nil => rfl
  | cons hd tl ih =>
    obtain ⟨a, b⟩ := hd
    simp only [List.map_cons, List.mem_cons] at h
    push_neg at h
    simp [lookupP, Ne.symm h.1, ih h.2]

theorem lookupP_delP_self {m : List (String × Nat)} (k : String) (h : keysNodup m) :
    lookupP (delP m k) k = none := by
  induction m with
  | nil => rfl
  | cons hd tl ih =>
    obtain ⟨a, b⟩ := hd
    simp only [keysNodup, List.map_cons, List.nodup_cons] at h
    by_cases ha : a = k
    · subst ha
      simp only [delP, if_pos rfl]
      exact lookupP_eq_none_of_not_mem h.1
    · simp [delP, lookupP, ha, ih h.2]

theorem mem_keys_setP {m : List (String × Nat)} {k x : String} {v : Nat}
    (h : x ∈ (setP m k v).map Prod.fst) : x ∈ m.map Prod.fst ∨ x = k := by
  induction m with
  | nil =>
    simp only [setP, List.map_cons, List.map_nil, List.mem_singleton] at h
    exact Or.inr h
  | cons hd tl ih =>
    obtain ⟨a, b⟩ := hd
    by_cases ha : a = k
    · subst ha
      simp only [setP, if_pos, List.map_cons, List.mem_cons] at h
      rcases h with h1 | h1
      · exact Or.inr h1
      · exact Or.inl (List.mem_cons_of_mem _ h1)
    · simp only [setP, if_neg ha, List.map_cons, List.mem_cons] at h
      rcases h with h1 | h1
      · exact Or.inl (h1 ▸ List.mem_cons_self _ _)
      · rcases ih h1 with h2 | h2
        · exact Or.inl (List.mem_cons_of_mem _ h2)
        · exact Or.inr h2

theorem keysNodup_setP {m : List (String × Nat)} (k : String) (v : Nat)
    (h : keysNodup m) : keysNodup (setP m k v) := by
  induction m with
  | nil => simp [setP, keysNodup]
  | cons hd tl ih =>
    obtain ⟨a, b⟩ := hd
    simp only [keysNodup, List.map_cons, List.nodup_cons] at h
    by_cases ha : a = k
    · subst ha
      simpa only [keysNodup, setP, if_pos, List.map_cons, List.nodup_cons] using h
    · simp only [keysNodup, setP, if_neg ha, List.map_cons, List.nodup_cons]
      refine ⟨?_, ih h.2⟩
      intro hx
      rcases mem_keys_setP hx with h1 | h1
      · exact h.1 h1
      · exact ha h1

theorem delP_sublist (m : List (String × Nat)) (k : String) :
    List.Sublist (delP m k) m := by
  induction m with
  | nil => simp [delP]
  | cons hd tl ih =>
    obtain ⟨a, b⟩ := hd
    by_cases ha : a = k
    · simp only [delP, if_pos ha]
      exact List.sublist_cons_self (a, b) tl
    · simpa [delP, ha] using ih.cons₂ (a, b)

theorem keysNodup_delP {m : List (String × Nat)} (k : String) (h : keysNodup m) :
    keysNodup (delP m k) :=
  ((delP_sublist m k).map Prod.fst).nodup h

/-! ## C10: GetTrack bounds behaviour -/

/-- Claim C10: for every non-negative index, `GetTrack` never reads outside
the retained track list: at or beyond the length it returns the fixed empty
sentinel, below the length it returns the track at that position (in
particular some track, never a panic); the guard only checks the upper
bound, so a negative index reaches the slice access and panics. -/
theorem claim_C10 (tracks : List Track) (idx : Int) :
    (0 ≤ idx →
      ((tracks.length : Int) ≤ idx → GetTrack tracks idx = some trackNotFound) ∧
      (idx < tracks.length →
        GetTrack tracks idx = tracks.get? idx.toNat ∧ (GetTrack tracks idx).isSome = true)) ∧
    (idx < 0 → GetTrack tracks idx = none) := by
  constructor
  · intro hge
    constructor
    · intro hlen
      simp [GetTrack, hlen]
    · intro hlt
      have hnot : ¬ (tracks.length : Int) ≤ idx := by omega
      have hnat : idx.toNat < tracks.length := by omega
      refine ⟨by simp [GetTrack, hnot, hge], ?_⟩
      simp [GetTrack, hnot, hge, List.getElem?_eq_getElem hnat]
  · intro hneg
    have h1 : ¬ (tracks.length : Int) ≤ idx := by omega
    have h2 : ¬ (0 : Int) ≤ idx := by omega
    simp [GetTrack, h1, h2]

/-- Closed witness for C10 at a concrete list and concrete indices. -/
theorem claim_C10_witness :
    GetTrack [trackNotFound] 5 = some trackNotFound ∧
    GetTrack [trackNotFound] 0 = [trackNotFound].get? 0 ∧
    GetTrack [trackNotFound] (-1) = none :=
  ⟨((claim_C10 [trackNotFound] 5).1 (by decide)).1 (by decide),
   (((claim_C10 [trackNotFound] 0).1 (by decide)).2 (by decide)).1,
   (claim_C10 [trackNotFound] (-1)).2 (by decide)⟩

/-! ## C9: stripping the xui-id fragment is not idempotent -/

/-- Deleting a match can splice the surrounding text into a fresh match:
after one pass over this input a new `xui-id="{...}"` fragment appears, and
a second pass deletes it, so one and two applications differ. -/
theorem claim_C9_counterexample :
    stripXuiStr (stripXuiStr "xui-xui-id=\"{a}\"id=\"{b}\"") ≠
      stripXuiStr "xui-xui-id=\"{a}\"id=\"{b}\"" := by
  decide

theorem stripXuiFuel_of_no_match :
    ∀ (n : Nat) (cs : List Char), hasXuiMatch cs = false → stripXuiFuel n cs = cs := by
  intro n
  induction n with
  | zero => intro cs _; rfl
  | succ n ih =>
    intro cs hm
    match cs with
    | [] => rfl
    | c :: rest =>
      simp only [hasXuiMatch, Bool.or_eq_false_iff] at hm
      have hnone : matchXui (c :: rest) = none := by
        cases hmc : matchXui (c :: rest) with
        | none => rfl
        | some r => rw [hmc] at hm; simp at hm
      simp only [stripXuiFuel, hnone, ih rest hm.2]

/-- Claim C9, amended: stripping all `xui-id="{...}"` matches is idempotent
whenever the once-stripped text contains no further match (deleting a match
can otherwise splice the surrounding text into a new match, which a second
application also strips). -/
theorem claim_C9_amended (s : String)
    (h : hasXuiMatch (stripXuiStr s).toList = false) :
    stripXuiStr (stripXuiStr s) = stripXuiStr s := by
  show String.mk (stripXuiFuel (stripXuiStr s).toList.length (stripXuiStr s).toList) = _
  rw [stripXuiFuel_of_no_match _ _ h]
  rfl

/-- Closed witness for the amended C9 at a raw line holding one fragment. -/
theorem claim_C9_witness :
    hasXuiMatch (stripXuiStr "a xui-id=\"{q}\" b").toList = false ∧
    stripXuiStr (stripXuiStr "a xui-id=\"{q}\" b") = stripXuiStr "a xui-id=\"{q}\" b" :=
  ⟨by decide, claim_C9_amended _ (by decide)⟩

/-! ## Lemmas about the id search and list surgery -/

theorem findIdxA_eq_none {p : Track → Bool} {l : List Track}
    (h : ∀ a ∈ l, p a = false) : findIdxA p l = none := by
  induction l with
  | nil => rfl
  | cons hd tl ih =>
    have hhd := h hd (List.mem_cons_self _ _)
    simp [findIdxA, hhd, ih (fun a ha => h a (List.mem_cons_of_mem _ ha))]

theorem findIdxA_append_singleton {p : Track → Bool} {l : List Track} {x : Track}
    (h : ∀ a ∈ l, p a = false) (hx : p x = true) :
    findIdxA p (l ++ [x]) = some l.length := by
  induction l with
  | nil => simp [findIdxA, hx]
  | cons hd tl ih =>
    have hhd := h hd (List.mem_cons_self _ _)
    simp [findIdxA, hhd, ih (fun a ha => h a (List.mem_cons_of_mem _ ha))]

theorem set_append_len (l : List Track) (a b : Track) :
    (l ++ [a]).set l.length b = l ++ [b] := by
  induction l with
  | nil => rfl
  | cons hd tl ih => simp [List.set, ih]

theorem getD_append_len (l : List Track) (a d : Track) :
    (l ++ [a]).getD l.length d = a := by
  induction l with
  | nil => rfl
  | cons hd tl ih => simp [List.getD] at ih ⊢

/-! ## C4: in-place HD replacement of an id duplicate -/

/-- Claim C4, amended (strictly better priority instead of equal-or-better):
starting from any reconciler state in which the shared display name is not
yet recorded and no retained track carries the shared non-empty `tvg-id`,
admit `t1` at priority `p1` and then `t2` — same name, same id, name
containing "HD" — at a strictly lower priority `p2`.  The first admission
appends `t1`; the second replaces it in place with `t2` at the same list
position, recording priority `p2`. -/
theorem claim_C4_amended (pl : PL) (t1 t2 : Track) (p1 p2 : Nat)
    (hname : t1.name = t2.name)
    (hid : t1.tag "tvg-id" = t2.tag "tvg-id")
    (hidne : t2.tag "tvg-id" ≠ "")
    (hHD : containsHD t2.name = true)
    (hfresh : lookupP pl.priorities t2.name = none)
    (hnoid : ∀ u ∈ pl.tracks, u.tag "tvg-id" ≠ t2.tag "tvg-id")
    (hlt : p2 < p1) :
    (processTrack pl t1 p1).tracks = pl.tracks ++ [t1] ∧
    (processTrack (processTrack pl t1 p1) t2 p2).tracks = pl.tracks ++ [t2] ∧
    lookupP (processTrack (processTrack pl t1 p1) t2 p2).priorities t2.name = some p2 := by
  have hnone1 : findIndexWithID pl.tracks t1 = none := by
    rw [findIndexWithID, hid]
    by_cases hz : t2.tag "tvg-id" = ""
    · simp [hz]
    · simp only [if_neg hz]
      exact findIdxA_eq_none (fun a ha => by simp [hnoid a ha])
  have hstep1 : processTrack pl t1 p1 =
      { pl with tracks := pl.tracks ++ [t1],
                priorities := setP pl.priorities t1.name p1 } := by
    rw [processTrack]
    rw [hname, hfresh, hnone1]
  have hlook2 : lookupP (setP pl.priorities t1.name p1) t2.name = some p1 := by
    rw [← hname]; exact lookupP_setP_self _ _ _
  have hfind2 : findIndexWithID (pl.tracks ++ [t1]) t2 = some pl.tracks.length := by
    rw [findIndexWithID]
    simp only [if_neg hidne]
    exact findIdxA_append_singleton (fun a ha => by simp [hnoid a ha]) (by simp [hid])
  refine ⟨by rw [hstep1], ?_, ?_⟩
  · rw [hstep1, processTrack]
    simp only [hlook2, if_pos hlt, hfind2, hHD, if_pos rfl]
    exact set_append_len pl.tracks t1 t2
  · rw [hstep1, processTrack]
    simp only [hlook2, if_pos hlt, hfind2, hHD, if_pos rfl]
    exact lookupP_setP_self _ _ _

/-- The claim as frozen is false at equal priority: with identical names the
admission guard demands a strictly lower priority, so the second track is
discarded (the state is untouched) instead of replacing the first. -/
theorem claim_C4_counterexample :
    let ca : Track := { name := "A HD", uri := "u1", tags := [("tvg-id", "1")], raw := "r1" }
    let cb : Track := { name := "A HD", uri := "u2", tags := [("tvg-id", "1")], raw := "r2" }
    processTrack (processTrack newPlaylistLoader ca 0) cb 0 =
      processTrack newPlaylistLoader ca 0 ∧
    (processTrack (processTrack newPlaylistLoader ca 0) cb 0).tracks = [ca] ∧
    ca ≠ cb := by
  decide

/-- Closed witness for the amended C4. -/
theorem claim_C4_witness :
    let ca : Track := { name := "A HD", uri := "u1", tags := [("tvg-id", "1")], raw := "r1" }
    let cb : Track := { name := "A HD", uri := "u2", tags := [("tvg-id", "1")], raw := "r2" }
    (processTrack (processTrack newPlaylistLoader ca 1) cb 0).tracks = [] ++ [cb] ∧
    lookupP (processTrack (processTrack newPlaylistLoader ca 1) cb 0).priorities
      cb.name = some 0 :=
  ⟨(claim_C4_amended newPlaylistLoader _ _ 1 0 (by decide) (by decide) (by decide)
      (by decide) (by decide) (by intro u hu; cases hu) (by decide)).2.1,
   (claim_C4_amended newPlaylistLoader _ _ 1 0 (by decide) (by decide) (by decide)
      (by decide) (by decide) (by intro u hu; cases hu) (by decide)).2.2⟩

/-! ## C5: a non-HD id duplicate is silently discarded -/

/-- Claim C5: from any reconciler state where the shared name is unrecorded
and the shared non-empty `tvg-id` is not yet retained, admitting `t1` and
then `t2` — same name, same id, `t2`'s name not containing "HD" — at any
priorities leaves the whole state (retained list, priority map, rendered
text) exactly as it was after `t1` alone: the duplicate is discarded. -/
theorem claim_C5 (pl : PL) (t1 t2 : Track) (p1 p2 : Nat)
    (hname : t1.name = t2.name)
    (hid : t1.tag "tvg-id" = t2.tag "tvg-id")
    (hidne : t2.tag "tvg-id" ≠ "")
    (hHD : containsHD t2.name = false)
    (hfresh : lookupP pl.priorities t2.name = none)
    (hnoid : ∀ u ∈ pl.tracks, u.tag "tvg-id" ≠ t2.tag "tvg-id") :
    processTrack (processTrack pl t1 p1) t2 p2 = processTrack pl t1 p1 := by
  have hnone1 : findIndexWithID pl.tracks t1 = none := by
    rw [findIndexWithID, hid]
    simp only [if_neg hidne]
    exact findIdxA_eq_none (fun a ha => by simp [hnoid a ha])
  have hstep1 : processTrack pl t1 p1 =
      { pl with tracks := pl.tracks ++ [t1],
                priorities := setP pl.priorities t1.name p1 } := by
    rw [processTrack]
    rw [hname, hfresh, hnone1]
  have hlook2 : lookupP (setP pl.priorities t1.name p1) t2.name = some p1 := by
    rw [← hname]; exact lookupP_setP_self _ _ _
  have hfind2 : findIndexWithID (pl.tracks ++ [t1]) t2 = some pl.tracks.length := by
    rw [findIndexWithID]
    simp only [if_neg hidne]
    exact findIdxA_append_singleton (fun a ha => by simp [hnoid a ha]) (by simp [hid])
  rw [hstep1, processTrack]
  simp only [hlook2]
  by_cases hp : p2 < p1
  · simp [if_pos hp, hfind2, hHD]
  · simp only [if_neg hp]

/-- Closed witness for C5. -/
theorem claim_C5_witness :
    let ca : Track := { name := "A", uri := "u1", tags := [("tvg-id", "1")], raw := "r1" }
    let cb : Track := { name := "A", uri := "u2", tags := [("tvg-id", "1")], raw := "r2" }
    processTrack (processTrack newPlaylistLoader ca 1) cb 0 =
      processTrack newPlaylistLoader ca 1 :=
  claim_C5 newPlaylistLoader _ _ 1 0 (by decide) (by decide) (by decide)
    (by decide) (by decide) (by intro u hu; cases hu)

/-! ## Generic fold preservation -/

theorem foldl_preserve {σ α : Type} (P : σ → Prop) (f : σ → α → σ)
    (hf : ∀ s a, P s → P (f s a)) :
    ∀ (l : List α) (s : σ), P s → P (l.foldl f s) := by
  intro l
  induction l with
  | nil => intro s hs; exact hs
  | cons hd tl ih => intro s hs; exact ih (f s hd) (hf s hd hs)

/-! ## C7: no filters configured -/

theorem setP_fresh {m : List (String × Nat)} {k : String} (v : Nat)
    (h : k ∉ m.map Prod.fst) : setP m k v = m ++ [(k, v)] := by
  induction m with
  | nil => rfl
  | cons hd tl ih =>
    obtain ⟨a, b⟩ := hd
    simp only [List.map_cons, List.mem_cons] at h
    push_neg at h
    simp [setP, Ne.symm h.1, ih h.2]

theorem lookupP_names_none {l : List Track} {n : String}
    (h : ∀ a ∈ l, a.name ≠ n) :
    lookupP (l.map (fun t => (t.name, 0))) n = none := by
  apply lookupP_eq_none_of_not_mem
  intro hmem
  rw [List.map_map] at hmem
  obtain ⟨a, ha, hn⟩ := List.mem_map.mp hmem
  exact h a ha hn

theorem lookupP_names_self {l : List Track} {x : Track} (h : x ∈ l) :
    lookupP (l.map (fun t => (t.name, 0))) x.name = some 0 := by
  induction l with
  | nil => cases h
  | cons hd tl ih =>
    by_cases hn : hd.name = x.name
    · simp [lookupP, hn]
    · rcases List.mem_cons.mp h with h1 | h1
      · exact absurd (h1 ▸ rfl) hn
      · simp [lookupP, hn, ih h1]

theorem insertT_of_false {less : Track → Track → Bool} {x : Track} :
    ∀ {l : List Track}, (∀ y ∈ l, less x y = false) → insertT less x l = l ++ [x] := by
  intro l
  induction l with
  | nil => intro _; rfl
  | cons hd tl ih =>
    intro h
    have hhd := h hd (List.mem_cons_self _ _)
    simp [insertT, hhd, ih (fun y hy => h y (List.mem_cons_of_mem _ hy))]

theorem foldl_insertT_of_false {less : Track → Track → Bool} :
    ∀ (ts acc : List Track),
      (∀ x ∈ ts, ∀ y, y ∈ acc ∨ y ∈ ts → less x y = false) →
      ts.foldl (fun acc t => insertT less t acc) acc = acc ++ ts := by
  intro ts
  induction ts with
  | nil => intro acc _; simp
  | cons hd tl ih =>
    intro acc h
    have h1 : insertT less hd acc = acc ++ [hd] :=
      insertT_of_false (fun y hy => h hd (List.mem_cons_self _ _) y (Or.inl hy))
    simp only [List.foldl_cons, h1]
    rw [ih (acc ++ [hd]) ?_]
    · simp
    · intro x hx y hy
      refine h x (List.mem_cons_of_mem _ hx) y ?_
      rcases hy with hy | hy
      · rcases List.mem_append.mp hy with hy' | hy'
        · exact Or.inl hy'
        · simp only [List.mem_singleton] at hy'
          exact Or.inr (hy' ▸ List.mem_cons_self _ _)
      · exact Or.inr (List.mem_cons_of_mem _ hy)

/-- The condition the counterexample forces on the inputs: pairwise
distinct display names, and no later track repeating an earlier track's
non-empty `tvg-id`. -/
def distinctCond (a b : Track) : Prop :=
  a.name ≠ b.name ∧ (b.tag "tvg-id" ≠ "" → a.tag "tvg-id" ≠ b.tag "tvg-id")

instance : DecidableRel distinctCond := fun a b => by
  unfold distinctCond; infer_instance

instance (m : List (String × Nat)) : Decidable (keysNodup m) := by
  unfold keysNodup; infer_instance

theorem noFilters_fold :
    ∀ (inputs : List Track) (pl : PL),
      pl.priorities = pl.tracks.map (fun t => (t.name, 0)) →
      List.Pairwise distinctCond (pl.tracks ++ inputs) →
      (inputs.foldl (OnTrack []) pl).tracks = pl.tracks ++ inputs ∧
      (inputs.foldl (OnTrack []) pl).priorities =
        (pl.tracks ++ inputs).map (fun t => (t.name, 0)) := by
  intro inputs
  induction inputs with
  | nil => intro pl hpri _; exact ⟨by simp, by simpa using hpri⟩
  | cons t rest ih =>
    intro pl hpri hpw
    have hrel : ∀ a ∈ pl.tracks, distinctCond a t := by
      intro a ha
      exact (List.pairwise_append.mp hpw).2.2 a ha t (List.mem_cons_self _ _)
    have hlook : lookupP pl.priorities t.name = none := by
      rw [hpri]
      exact lookupP_names_none (fun a ha => (hrel a ha).1)
    have hfind : findIndexWithID pl.tracks t = none := by
      rw [findIndexWithID]
      by_cases hz : t.tag "tvg-id" = ""
      · simp [hz]
      · simp only [if_neg hz]
        exact findIdxA_eq_none (fun a ha => by simp [(hrel a ha).2 hz])
    have hstep : OnTrack [] pl t =
        { pl with tracks := pl.tracks ++ [t],
                  priorities := setP pl.priorities t.name 0 } := by
      show processTrack pl t 0 = _
      rw [processTrack, hlook, hfind]
    have hsetp : setP pl.priorities t.name 0 =
        (pl.tracks ++ [t]).map (fun t => (t.name, 0)) := by
      rw [hpri, setP_fresh 0 ?_]
      · simp
      · intro hmem
        rw [List.map_map] at hmem
        obtain ⟨a, ha, hn⟩ := List.mem_map.mp hmem
        exact (hrel a ha).1 hn
    have hpw' : List.Pairwise distinctCond ((pl.tracks ++ [t]) ++ rest) := by
      simpa using hpw
    have := ih { pl with tracks := pl.tracks ++ [t],
                         priorities := setP pl.priorities t.name 0 }
      (by simpa using hsetp) hpw'
    simp only [List.foldl_cons, hstep]
    constructor
    · rw [this.1]; simp
    · rw [this.2]; simp

/-- Claim C7, amended: with no filters every track is admitted at
priority 0, but deduplication is by display name, not by `(name, id)` pair
— a later track whose name was already seen is discarded even when its
non-empty id differs.  Under the condition the counterexample forces
(pairwise distinct names, no repeated non-empty id), every input track is
retained at priority 0 in original order. -/
theorem claim_C7_amended (base : String) (inputs : List Track)
    (h : List.Pairwise distinctCond inputs) :
    (runReconcile base [] inputs).tracks = inputs ∧
    ∀ t ∈ inputs, lookupP (runReconcile base [] inputs).priorities t.name = some 0 := by
  have hfold := noFilters_fold inputs (OnPlaylistStart newPlaylistLoader) rfl (by simpa using h)
  have hpre1 : (runPre [] inputs).tracks = inputs := by simpa using hfold.1
  have hpre2 : (runPre [] inputs).priorities = inputs.map (fun t => (t.name, 0)) := by
    simpa using hfold.2
  have hsort : sortTracks (runPre [] inputs).priorities (runPre [] inputs).tracks = inputs := by
    rw [hpre1, sortTracks]
    rw [foldl_insertT_of_false inputs [] ?_]
    · simp
    · intro x hx y hy
      rcases hy with hy | hy
      · cases hy
      · rw [goLess, hpre2, lookupP_names_self hx, lookupP_names_self hy]
        simp
  refine ⟨?_, ?_⟩
  · show (OnPlaylistEnd base (runPre [] inputs)).tracks = inputs
    simp only [OnPlaylistEnd, hsort]
  · intro t ht
    show lookupP (OnPlaylistEnd base (runPre [] inputs)).priorities t.name = some 0
    simp only [OnPlaylistEnd]
    rw [hpre2]
    exact lookupP_names_self ht

/-- The claim as frozen is false: with no filters, two tracks sharing a
name but carrying different non-empty ids are distinct `(name, id)` pairs,
yet only the first is retained — the second is dropped by the name guard. -/
theorem claim_C7_counterexample :
    let u1 : Track := { name := "A", uri := "u1", tags := [("tvg-id", "1")], raw := "" }
    let u2 : Track := { name := "A", uri := "u2", tags := [("tvg-id", "2")], raw := "" }
    (runReconcile "" [] [u1, u2]).tracks = [u1] ∧
    u1.tag "tvg-id" ≠ u2.tag "tvg-id" ∧ u1.tag "tvg-id" ≠ "" ∧ u2.tag "tvg-id" ≠ "" ∧
    u1 ≠ u2 := by
  decide

/-- Closed witness for the amended C7. -/
theorem claim_C7_witness :
    let u1 : Track := { name := "A", uri := "u1", tags := [("tvg-id", "1")], raw := "" }
    let u2 : Track := { name := "B", uri := "u2", tags := [("tvg-id", "2")], raw := "" }
    (runReconcile "" [] [u1, u2]).tracks = [u1, u2] ∧
    lookupP (runReconcile "" [] [u1, u2]).priorities "A" = some 0 :=
  ⟨(claim_C7_amended "" _ (by decide)).1,
   (claim_C7_amended "" _ (by decide)).2 _ (List.mem_cons_self _ _)⟩

/-! ## C8: shape and evolution of the priority map -/

theorem processTrack_keysNodup (pl : PL) (t : Track) (p : Nat)
    (h : keysNodup pl.priorities) : keysNodup (processTrack pl t p).priorities := by
  rw [processTrack]
  cases hl : lookupP pl.priorities t.name with
  | none =>
    cases hf : findIndexWithID pl.tracks t with
    | some idx =>
      by_cases hHD : containsHD t.name = true
      · simp only [hHD, if_pos]
        exact keysNodup_setP _ _ (keysNodup_delP _ h)
      · simp only [Bool.not_eq_true] at hHD
        simp only [hHD]
        simpa using h
    | none => exact keysNodup_setP _ _ h
  | some ep =>
    by_cases hp : p < ep
    · simp only [if_pos hp]
      cases hf : findIndexWithID pl.tracks t with
      | some idx =>
        by_cases hHD : containsHD t.name = true
        · simp only [hHD, if_pos]
          exact keysNodup_setP _ _ (keysNodup_delP _ h)
        · simp only [Bool.not_eq_true] at hHD
          simp only [hHD]
          simpa using h
      | none => exact keysNodup_setP _ _ h
    · simp only [if_neg hp]
      exact h

theorem OnTrack_keysNodup (filters : List Filter) (pl : PL) (t : Track)
    (h : keysNodup pl.priorities) : keysNodup (OnTrack filters pl t).priorities := by
  rw [OnTrack]
  by_cases he : filters.isEmpty
  · simp only [he, if_pos]
    exact processTrack_keysNodup pl t 0 h
  · simp only [he, if_neg, Bool.false_eq_true, not_false_iff]
    refine foldl_preserve (fun s => keysNodup s.priorities) _ ?_ _ pl h
    intro s a hs
    dsimp only
    by_cases h1 : t.tag (filterField a.2.type) = ""
    · simp only [h1, if_pos]; exact hs
    · simp only [if_neg h1]
      by_cases h2 : a.2.rmatch (t.tag (filterField a.2.type)) = true
      · simp only [h2, if_pos]
        exact processTrack_keysNodup s t a.1 hs
      · simp only [Bool.not_eq_true] at h2
        simp only [h2]
        simpa using hs

theorem processTrack_lookup_le (pl : PL) (t : Track) (p : Nat) (n : String) (v' : Nat)
    (hnd : keysNodup pl.priorities)
    (h : lookupP (processTrack pl t p).priorities n = some v') :
    lookupP pl.priorities n = none ∨
      ∃ v, lookupP pl.priorities n = some v ∧ v' ≤ v := by
  rw [processTrack] at h
  cases hl : lookupP pl.priorities t.name with
  | none =>
    rw [hl] at h
    cases hf : findIndexWithID pl.tracks t with
    | some idx =>
      rw [hf] at h
      by_cases hHD : containsHD t.name = true
      · simp only [hHD, if_pos] at h
        by_cases hn : n = t.name
        · subst hn
          exact Or.inl hl
        · rw [lookupP_setP_ne _ _ hn] at h
          by_cases ho : n = (pl.tracks.getD idx t).name
          · subst ho
            rw [lookupP_delP_self _ hnd] at h
            cases h
          · rw [lookupP_delP_ne _ ho] at h
            exact Or.inr ⟨v', h, le_refl _⟩
      · simp only [Bool.not_eq_true] at hHD
        rw [hHD] at h
        simp only at h
        exact Or.inr ⟨v', h, le_refl _⟩
    | none =>
      rw [hf] at h
      simp only at h
      by_cases hn : n = t.name
      · subst hn
        exact Or.inl hl
      · rw [lookupP_setP_ne _ _ hn] at h
        exact Or.inr ⟨v', h, le_refl _⟩
  | some ep =>
    rw [hl] at h
    by_cases hp : p < ep
    · simp only [if_pos hp] at h
      cases hf : findIndexWithID pl.tracks t with
      | some idx =>
        rw [hf] at h
        by_cases hHD : containsHD t.name = true
        · simp only [hHD, if_pos] at h
          by_cases hn : n = t.name
          · subst hn
            rw [lookupP_setP_self] at h
            cases h
            exact Or.inr ⟨ep, hl, le_of_lt hp⟩
          · rw [lookupP_setP_ne _ _ hn] at h
            by_cases ho : n = (pl.tracks.getD idx t).name
            · subst ho
              rw [lookupP_delP_self _ hnd] at h
              cases h
            · rw [lookupP_delP_ne _ ho] at h
              exact Or.inr ⟨v', h, le_refl _⟩
        · simp only [Bool.not_eq_true] at hHD
          rw [hHD] at h
          simp only at h
          exact Or.inr ⟨v', h, le_refl _⟩
      | none =>
        rw [hf] at h
        simp only at h
        by_cases hn : n = t.name
        · subst hn
          rw [lookupP_setP_self] at h
          cases h
          exact Or.inr ⟨ep, hl, le_of_lt hp⟩
        · rw [lookupP_setP_ne _ _ hn] at h
          exact Or.inr ⟨v', h, le_refl _⟩
    · simp only [if_neg hp] at h
      exact Or.inr ⟨v', h, le_refl _⟩

/-- Claim C8, amended: (a) in every complete reconciliation run the
priority map keeps pairwise-distinct keys, and (b) a single admission step
never raises a priority that stays in the map — if a name is mapped after
`processTrack`, it was either unmapped before or mapped to a value at least
as large.  (Across a whole run the frozen claim fails: the HD replacement
path deletes the replaced track's name from the map, after which a later
step may re-record that name at a strictly worse priority.) -/
theorem claim_C8_amended :
    (∀ (base : String) (filters : List Filter) (inputs : List Track),
      keysNodup (runReconcile base filters inputs).priorities) ∧
    (∀ (pl : PL) (t : Track) (p : Nat) (n : String) (v' : Nat),
      keysNodup pl.priorities →
      lookupP (processTrack pl t p).priorities n = some v' →
      lookupP pl.priorities n = none ∨
        ∃ v, lookupP pl.priorities n = some v ∧ v' ≤ v) := by
  constructor
  · intro base filters inputs
    show keysNodup
      (OnPlaylistEnd base (inputs.foldl (OnTrack filters) (OnPlaylistStart newPlaylistLoader))).priorities
    simp only [OnPlaylistEnd]
    refine foldl_preserve (fun s : PL => keysNodup s.priorities) _ ?_ inputs _ ?_
    · intro s a hs; exact OnTrack_keysNodup filters s a hs
    · simp [OnPlaylistStart, newPlaylistLoader, keysNodup]
  · intro pl t p n v' hnd h
    exact processTrack_lookup_le pl t p n v' hnd h

/-- The frozen claim is false over a whole run: track `w1` records name
"M" at priority 0; `w2` (same id, name containing "HD") replaces it,
deleting "M" from the map; `w3` then re-records "M" at priority 1 — a
strictly larger value than "M" once held. -/
theorem claim_C8_counterexample :
    let fs : List Filter := [⟨.name, fun s => s == "a"⟩, ⟨.name, fun s => s == "b"⟩]
    let w1 : Track := { name := "M", uri := "", tags := [("tvg-id", "1"), ("tvg-name", "a")], raw := "" }
    let w2 : Track := { name := "N HD", uri := "", tags := [("tvg-id", "1"), ("tvg-name", "a")], raw := "" }
    let w3 : Track := { name := "M", uri := "", tags := [("tvg-id", "2"), ("tvg-name", "b")], raw := "" }
    let s1 := OnTrack fs (OnPlaylistStart newPlaylistLoader) w1
    let s3 := OnTrack fs (OnTrack fs s1 w2) w3
    lookupP s1.priorities "M" = some 0 ∧ lookupP s3.priorities "M" = some 1 := by
  decide

/-- Closed witness for the amended C8. -/
theorem claim_C8_witness :
    keysNodup (runReconcile "" [] []).priorities ∧
    (lookupP [("X", 5)] "X" = none ∨ ∃ v, lookupP [("X", 5)] "X" = some v ∧ 3 ≤ v) :=
  ⟨claim_C8_amended.1 "" [] [],
   claim_C8_amended.2 { tracks := [], priorities := [("X", 5)], m3u := "" }
     { name := "X", uri := "", tags := [], raw := "" } 3 "X" 3
     (by decide) (by decide)⟩

/-! ## C2: no duplicate non-empty tvg-id in the retained list -/

/-- No-duplicate relation: two tracks may share a `tvg-id` only when it is
empty. -/
def idOK (a b : Track) : Prop :=
  a.tag "tvg-id" = b.tag "tvg-id" → a.tag "tvg-id" = ""

theorem idOK_symmetric : Symmetric idOK := by
  intro a b h h'
  exact h'.trans (h h'.symm)

theorem findIdxA_none_forall {p : Track → Bool} {l : List Track}
    (h : findIdxA p l = none) : ∀ a ∈ l, p a = false := by
  induction l with
  | nil => intro a ha; cases ha
  | cons hd tl ih =>
    intro a ha
    by_cases hp : p hd = true
    · rw [findIdxA, if_pos hp] at h; cases h
    · simp only [Bool.not_eq_true] at hp
      rw [findIdxA, hp] at h
      simp only [Bool.false_eq_true, if_false, Option.map_eq_none'] at h
      rcases List.mem_cons.mp ha with h1 | h1
      · exact h1 ▸ hp
      · exact ih h a h1

theorem findIdxA_some {p : Track → Bool} :
    ∀ {l : List Track} {i : Nat}, findIdxA p l = some i →
      ∃ a, l.get? i = some a ∧ p a = true := by
  intro l
  induction l with
  | nil => intro i h; cases h
  | cons hd tl ih =>
    intro i h
    by_cases hp : p hd = true
    · rw [findIdxA, if_pos hp] at h
      cases h
      exact ⟨hd, rfl, hp⟩
    · simp only [Bool.not_eq_true] at hp
      rw [findIdxA, hp] at h
      simp only [Bool.false_eq_true, if_false, Option.map_eq_some'] at h
      obtain ⟨j, hj, hi⟩ := h
      obtain ⟨a, ha, hpa⟩ := ih hj
      exact ⟨a, by simpa [← hi] using ha, hpa⟩

theorem findIndexWithID_some {tracks : List Track} {t : Track} {idx : Nat}
    (h : findIndexWithID tracks t = some idx) :
    t.tag "tvg-id" ≠ "" ∧
      ∃ u, tracks.get? idx = some u ∧ u.tag "tvg-id" = t.tag "tvg-id" := by
  rw [findIndexWithID] at h
  by_cases hz : t.tag "tvg-id" = ""
  · simp [hz] at h
  · simp only [if_neg hz] at h
    obtain ⟨u, hu, hp⟩ := findIdxA_some h
    exact ⟨hz, u, hu, of_decide_eq_true hp⟩

theorem findIndexWithID_none {tracks : List Track} {t : Track}
    (h : findIndexWithID tracks t = none) :
    ∀ u ∈ tracks, u.tag "tvg-id" = t.tag "tvg-id" → u.tag "tvg-id" = "" := by
  intro u hu heq
  rw [findIndexWithID] at h
  by_cases hz : t.tag "tvg-id" = ""
  · exact heq.trans hz
  · simp only [if_neg hz] at h
    have := findIdxA_none_forall h u hu
    simp only [decide_eq_false_iff_not] at this
    exact absurd heq this

theorem pairwise_set {α β : Type} (f : α → β) (S : β → β → Prop) :
    ∀ (l : List α) (i : Nat) (u v : α),
      l.Pairwise (fun a b => S (f a) (f b)) → l.get? i = some u → f v = f u →
      (l.set i v).Pairwise (fun a b => S (f a) (f b)) := by
  intro l
  induction l with
  | nil => intro i u v _ hg _; cases hg
  | cons hd tl ih =>
    intro i u v hp hg hf
    match i with
    | 0 =>
      cases hg
      rw [List.set_cons_zero]
      refine List.Pairwise.cons ?_ (List.Pairwise.sublist (List.sublist_cons_self _ _) hp)
      intro b hb
      rw [hf]
      exact (List.pairwise_cons.mp hp).1 b hb
    | j + 1 =>
      rw [List.set_cons_succ]
      have h1 := List.pairwise_cons.mp hp
      refine List.Pairwise.cons ?_ (ih j u v h1.2 hg hf)
      intro b hb
      rcases List.mem_or_eq_of_mem_set hb with hb' | hb'
      · exact h1.1 b hb'
      · subst hb'
        rw [hf]
        exact h1.1 u (List.get?_mem hg)

theorem processTrack_idOK (pl : PL) (t : Track) (p : Nat)
    (h : pl.tracks.Pairwise idOK) : (processTrack pl t p).tracks.Pairwise idOK := by
  have hset : ∀ idx, findIndexWithID pl.tracks t = some idx →
      (pl.tracks.set idx t).Pairwise idOK := by
    intro idx hf
    obtain ⟨_, u, hu, heq⟩ := findIndexWithID_some hf
    exact pairwise_set (fun a : Track => a.tag "tvg-id") (fun x y => x = y → x = "")
      pl.tracks idx u t h hu heq.symm
  have happ : findIndexWithID pl.tracks t = none →
      (pl.tracks ++ [t]).Pairwise idOK := by
    intro hf
    rw [List.pairwise_append]
    refine ⟨h, List.pairwise_singleton _ _, ?_⟩
    intro a ha b hb heq
    rw [List.mem_singleton] at hb
    subst hb
    exact findIndexWithID_none hf a ha heq
  rw [processTrack]
  cases hl : lookupP pl.priorities t.name with
  | none =>
    cases hf : findIndexWithID pl.tracks t with
    | some idx =>
      by_cases hHD : containsHD t.name = true
      · simp only [hHD, if_pos]
        exact hset idx hf
      · simp only [Bool.not_eq_true] at hHD
        simp only [hHD]
        simpa using h
    | none => exact happ hf
  | some ep =>
    by_cases hp : p < ep
    · simp only [if_pos hp]
      cases hf : findIndexWithID pl.tracks t with
      | some idx =>
        by_cases hHD : containsHD t.name = true
        · simp only [hHD, if_pos]
          exact hset idx hf
        · simp only [Bool.not_eq_true] at hHD
          simp only [hHD]
          simpa using h
      | none => exact h
    · simp only [if_neg hp]
      exact h

theorem OnTrack_idOK (filters : List Filter) (pl : PL) (t : Track)
    (h : pl.tracks.Pairwise idOK) : (OnTrack filters pl t).tracks.Pairwise idOK := by
  rw [OnTrack]
  by_cases he : filters.isEmpty
  · simp only [he, if_pos]
    exact processTrack_idOK pl t 0 h
  · simp only [he, if_neg, Bool.false_eq_true, not_false_iff]
    refine foldl_preserve (fun s : PL => s.tracks.Pairwise idOK) _ ?_ _ pl h
    intro s a hs
    dsimp only
    by_cases h1 : t.tag (filterField a.2.type) = ""
    · simp only [h1, if_pos]; exact hs
    · simp only [if_neg h1]
      by_cases h2 : a.2.rmatch (t.tag (filterField a.2.type)) = true
      · simp only [h2, if_pos]
        exact processTrack_idOK s t a.1 hs
      · simp only [Bool.not_eq_true] at h2
        simp only [h2]
        simpa using hs

theorem insertT_perm (less : Track → Track → Bool) (x : Track) :
    ∀ l : List Track, (insertT less x l).Perm (x :: l) := by
  intro l
  induction l with
  | nil => exact List.Perm.refl _
  | cons hd tl ih =>
    rw [insertT]
    by_cases hx : less x hd = true
    · rw [if_pos hx]
    · simp only [Bool.not_eq_true] at hx
      simp only [hx, Bool.false_eq_true, if_false]
      exact (ih.cons hd).trans (List.Perm.swap x hd tl)

theorem foldl_insertT_perm (less : Track → Track → Bool) :
    ∀ (ts acc : List Track),
      (ts.foldl (fun acc t => insertT less t acc) acc).Perm (acc ++ ts) := by
  intro ts
  induction ts with
  | nil => intro acc; simp
  | cons hd tl ih =>
    intro acc
    simp only [List.foldl_cons]
    refine (ih (insertT less hd acc)).trans ?_
    refine (List.Perm.append_right tl (insertT_perm less hd acc)).trans ?_
    exact List.perm_middle.symm

theorem sortTracks_perm (prios : List (String × Nat)) (ts : List Track) :
    (sortTracks prios ts).Perm ts := by
  simpa using foldl_insertT_perm (goLess prios) ts []

/-- Claim C2: for every filter list and input sequence, the final retained
list after `OnPlaylistEnd` contains no two entries with equal non-empty
`tvg-id`: every pair of retained tracks sharing a `tvg-id` shares the empty
one. -/
theorem claim_C2 (base : String) (filters : List Filter) (inputs : List Track) :
    (runReconcile base filters inputs).tracks.Pairwise idOK := by
  have hpre : (inputs.foldl (OnTrack filters) (OnPlaylistStart newPlaylistLoader)).tracks.Pairwise
      idOK := by
    refine foldl_preserve (fun s : PL => s.tracks.Pairwise idOK) _ ?_ inputs _ ?_
    · intro s a hs; exact OnTrack_idOK filters s a hs
    · simp [OnPlaylistStart, newPlaylistLoader]
  show (OnPlaylistEnd base (inputs.foldl (OnTrack filters) (OnPlaylistStart newPlaylistLoader))).tracks.Pairwise idOK
  simp only [OnPlaylistEnd]
  exact ((sortTracks_perm _ _).pairwise_iff (fun hab => idOK_symmetric hab)).mpr hpre

/-! ## C3: the final order is the stable sort by recorded priority -/

/-- The sort key of a track under the priority map: a recorded priority `p`
becomes `(0, p)`, no recorded priority becomes `(1, 0)` — so matched tracks
sort by priority and unmatched tracks sort after all of them. -/
def rank (prios : List (String × Nat)) (t : Track) : Nat × Nat :=
  match lookupP prios t.name with
  | some p => (0, p)
  | none => (1, 0)

/-- Lexicographic order on sort keys. -/
def rankLe (a b : Nat × Nat) : Prop :=
  a.1 < b.1 ∨ (a.1 = b.1 ∧ a.2 ≤ b.2)

instance (a b : Nat × Nat) : Decidable (rankLe a b) := by
  unfold rankLe; infer_instance

theorem rankLe_refl (a : Nat × Nat) : rankLe a a := Or.inr ⟨rfl, le_refl _⟩

theorem rankLe_trans {a b c : Nat × Nat} (h1 : rankLe a b) (h2 : rankLe b c) :
    rankLe a c := by
  rcases h1 with h1 | ⟨h1, h1'⟩ <;> rcases h2 with h2 | ⟨h2, h2'⟩ <;>
    [exact Or.inl (h1.trans h2); exact Or.inl (h2 ▸ h1);
     exact Or.inl (h1 ▸ h2); exact Or.inr ⟨h1.trans h2, h1'.trans h2'⟩]

theorem rankLe_total (a b : Nat × Nat) : rankLe a b ∨ rankLe b a := by
  unfold rankLe; omega

theorem goLess_eq_false {prios : List (String × Nat)} {a b : Track} :
    goLess prios a b = false ↔ rankLe (rank prios b) (rank prios a) := by
  rw [goLess, rank, rank]
  cases lookupP prios a.name with
  | none =>
    cases lookupP prios b.name with
    | none => simp [rankLe]
    | some pb => simp [rankLe]
  | some pa =>
    cases lookupP prios b.name with
    | none => simp [rankLe]
    | some pb =>
      simp [rankLe]

theorem goLess_eq_true {prios : List (String × Nat)} {a b : Track} :
    goLess prios a b = true ↔ ¬ rankLe (rank prios b) (rank prios a) := by
  rw [← goLess_eq_false]
  cases h : goLess prios a b <;> simp

/-- Sortedness of a track list under the rank order. -/
def rankSorted (prios : List (String × Nat)) (l : List Track) : Prop :=
  l.Pairwise (fun a b => rankLe (rank prios a) (rank prios b))

theorem insertT_rankSorted {prios : List (String × Nat)} {x : Track} :
    ∀ {l : List Track}, rankSorted prios l →
      rankSorted prios (insertT (goLess prios) x l) := by
  intro l
  induction l with
  | nil => intro _; simp [rankSorted, insertT]
  | cons y ys ih =>
    intro h
    have hy := List.pairwise_cons.mp h
    rw [insertT]
    by_cases hx : goLess prios x y = true
    · rw [if_pos hx]
      have hxy : rankLe (rank prios x) (rank prios y) := by
        rcases rankLe_total (rank prios x) (rank prios y) with h1 | h1
        · exact h1
        · exact absurd h1 (goLess_eq_true.mp hx)
      refine List.Pairwise.cons ?_ h
      intro b hb
      rcases List.mem_cons.mp hb with hb | hb
      · exact hb ▸ hxy
      · exact rankLe_trans hxy (hy.1 b hb)
    · simp only [Bool.not_eq_true] at hx
      simp only [hx, Bool.false_eq_true, if_false]
      have hyx : rankLe (rank prios y) (rank prios x) := goLess_eq_false.mp hx
      refine List.Pairwise.cons ?_ (ih hy.2)
      intro b hb
      rcases List.mem_cons.mp ((insertT_perm (goLess prios) x ys).mem_iff.mp hb) with hb | hb
      · exact hb ▸ hyx
      · exact hy.1 b hb

theorem insertT_filter_rank {prios : List (String × Nat)} {x : Track} (r : Nat × Nat) :
    ∀ {l : List Track}, rankSorted prios l →
      (insertT (goLess prios) x l).filter (fun t => decide (rank prios t = r)) =
        l.filter (fun t => decide (rank prios t = r)) ++
          (if rank prios x = r then [x] else []) := by
  intro l
  induction l with
  | nil =>
    intro _
    by_cases hr : rank prios x = r <;> simp [insertT, hr]
  | cons y ys ih =>
    intro h
    have hy := List.pairwise_cons.mp h
    rw [insertT]
    by_cases hx : goLess prios x y = true
    · rw [if_pos hx]
      have hlt : ¬ rankLe (rank prios y) (rank prios x) := goLess_eq_true.mp hx
      by_cases hr : rank prios x = r
      · have hnil : (y :: ys).filter (fun t => decide (rank prios t = r)) = [] := by
          rw [List.filter_eq_nil_iff]
          intro b hb
          simp only [decide_eq_true_eq]
          intro hbr
          have hyb : rankLe (rank prios y) (rank prios b) := by
            rcases List.mem_cons.mp hb with hb' | hb'
            · exact hb' ▸ rankLe_refl _
            · exact hy.1 b hb'
          rw [hbr, ← hr] at hyb
          exact hlt hyb
        rw [List.filter_cons_of_pos (by simpa using hr), hnil, hr]
        simp
      · rw [List.filter_cons_of_neg (by simpa using hr)]
        simp [hr]
    · simp only [Bool.not_eq_true] at hx
      simp only [hx, Bool.false_eq_true, if_false]
      by_cases hyr : rank prios y = r
      · rw [List.filter_cons_of_pos (by simpa using hyr),
            List.filter_cons_of_pos (by simpa using hyr), ih hy.2]
        simp
      · rw [List.filter_cons_of_neg (by simpa using hyr),
            List.filter_cons_of_neg (by simpa using hyr), ih hy.2]

theorem sortTracks_append_singleton (prios : List (String × Nat)) (ts : List Track)
    (x : Track) :
    sortTracks prios (ts ++ [x]) = insertT (goLess prios) x (sortTracks prios ts) := by
  simp [sortTracks, List.foldl_append]

theorem sortTracks_rankSorted (prios : List (String × Nat)) (ts : List Track) :
    rankSorted prios (sortTracks prios ts) := by
  induction ts using List.reverseRecOn with
  | nil => simp [sortTracks, rankSorted]
  | append_singleton ts x ih =>
    rw [sortTracks_append_singleton]
    exact insertT_rankSorted ih

theorem sortTracks_filter_rank (prios : List (String × Nat)) (ts : List Track)
    (r : Nat × Nat) :
    (sortTracks prios ts).filter (fun t => decide (rank prios t = r)) =
      ts.filter (fun t => decide (rank prios t = r)) := by
  induction ts using List.reverseRecOn with
  | nil => simp [sortTracks]
  | append_singleton ts x ih =>
    rw [sortTracks_append_singleton,
        insertT_filter_rank r (sortTracks_rankSorted prios ts), ih, List.filter_append]
    by_cases hr : rank prios x = r <;> simp [hr]

/-- Claim C3: the final output order after `OnPlaylistEnd` is the stable
sort of the retained list by recorded priority: it is (1) a permutation of
the pre-sort retained list, (2) sorted by the key that maps a recorded
priority `p` to `(0, p)` and no recorded priority to `(1, 0)` — so matched
tracks come in ascending priority and every unmatched track comes after all
matched ones — and (3) stable: for every key value, the tracks carrying
that key appear in exactly their original relative order (ties by equal
priority, and the unmatched tracks among themselves, keep input order). -/
theorem claim_C3 (base : String) (filters : List Filter) (inputs : List Track) :
    (runReconcile base filters inputs).tracks.Perm (runPre filters inputs).tracks ∧
    rankSorted (runPre filters inputs).priorities (runReconcile base filters inputs).tracks ∧
    ∀ r, (runReconcile base filters inputs).tracks.filter
          (fun t => decide (rank (runPre filters inputs).priorities t = r)) =
        (runPre filters inputs).tracks.filter
          (fun t => decide (rank (runPre filters inputs).priorities t = r)) := by
  have htracks : (runReconcile base filters inputs).tracks =
      sortTracks (runPre filters inputs).priorities (runPre filters inputs).tracks := by
    show (OnPlaylistEnd base (runPre filters inputs)).tracks = _
    simp only [OnPlaylistEnd]
  rw [htracks]
  exact ⟨sortTracks_perm _ _, sortTracks_rankSorted _ _,
    fun r => sortTracks_filter_rank _ _ r⟩

/-! ## C6: the EPG filter keeps exactly the retained channels' records -/

theorem epgLoop_spec (inSet : String → Bool) :
    ∀ (items : List EpgItem) (st out : TVData × Nat × Nat),
      epgLoop inSet st items = some out →
      out.1.programmes = st.1.programmes ++ (progsOf items).filter (fun p => inSet p.channel) ∧
      out.1.channels = st.1.channels ++ (chansOf items).filter (fun c => inSet c.id) ∧
      out.2.2 = st.2.2 + (progsOf items).length ∧
      out.2.1 = st.2.1 + (chansOf items).length := by
  intro items
  induction items with
  | nil =>
    intro st out h
    cases h
    simp [progsOf, chansOf]
  | cons item rest ih =>
    intro st out h
    cases item with
    | tvTag a1 a2 a3 a4 a5 a6 =>
      rw [epgLoop, epgStep] at h
      have := ih _ _ h
      simpa [progsOf, chansOf] using this
    | programme p =>
      rw [epgLoop, epgStep] at h
      obtain ⟨e1, e2, e3, e4⟩ := ih _ _ h
      by_cases hp : inSet p.channel = true
      · simp only [hp, if_pos] at e1 e2 e3 e4
        simp only [progsOf, chansOf, List.filterMap_cons] at e1 e2 e3 e4 ⊢
        simp only [List.filter_cons, hp, if_pos]
        refine ⟨by rw [e1]; simp, e2, by simp only [List.length_cons]; omega, e4⟩
      · simp only [Bool.not_eq_true] at hp
        simp only [hp, Bool.false_eq_true, if_false] at e1 e2 e3 e4
        simp only [progsOf, chansOf, List.filterMap_cons] at e1 e2 e3 e4 ⊢
        simp only [List.filter_cons, hp, Bool.false_eq_true, if_false]
        exact ⟨e1, e2, by simp only [List.length_cons]; omega, e4⟩
    | programmeBad =>
      rw [epgLoop, epgStep] at h
      cases h
    | channel c =>
      rw [epgLoop, epgStep] at h
      obtain ⟨e1, e2, e3, e4⟩ := ih _ _ h
      by_cases hc : inSet c.id = true
      · simp only [hc, if_pos] at e1 e2 e3 e4
        simp only [progsOf, chansOf, List.filterMap_cons] at e1 e2 e3 e4 ⊢
        simp only [List.filter_cons, hc, if_pos]
        refine ⟨e1, by rw [e2]; simp, e3, by simp only [List.length_cons]; omega⟩
      · simp only [Bool.not_eq_true] at hc
        simp only [hc, Bool.false_eq_true, if_false] at e1 e2 e3 e4
        simp only [progsOf, chansOf, List.filterMap_cons] at e1 e2 e3 e4 ⊢
        simp only [List.filter_cons, hc, Bool.false_eq_true, if_false]
        exact ⟨e1, e2, e3, by simp only [List.length_cons]; omega⟩
    | channelBad =>
      rw [epgLoop, epgStep] at h
      cases h
    | other =>
      rw [epgLoop, epgStep] at h
      have := ih _ _ h
      simpa [progsOf, chansOf] using this

/-- Claim C6: whenever `loadXMLTv` succeeds, the output programmes are
exactly the input's programme elements whose channel reference lies in the
retained channel-ID set derived from the reconciler's tracks (in input
order), likewise for channels, and the kept counts never exceed the
total-seen counters. -/
theorem claim_C6 (tracks : List Track) (items : List EpgItem)
    (out : TVData × Nat × Nat) (h : loadXMLTv tracks items = some out) :
    out.1.programmes = (progsOf items).filter (fun p => channelMem tracks p.channel) ∧
    (∀ p, p ∈ out.1.programmes ↔
      p ∈ progsOf items ∧ channelMem tracks p.channel = true) ∧
    out.1.channels = (chansOf items).filter (fun c => channelMem tracks c.id) ∧
    out.1.programmes.length ≤ out.2.2 ∧
    out.1.channels.length ≤ out.2.1 := by
  have hs := epgLoop_spec (channelMem tracks) items _ out h
  have hp : out.1.programmes =
      (progsOf items).filter (fun p => channelMem tracks p.channel) := by
    simpa using hs.1
  have hc : out.1.channels =
      (chansOf items).filter (fun c => channelMem tracks c.id) := by
    simpa using hs.2.1
  refine ⟨hp, ?_, hc, ?_, ?_⟩
  · intro p
    rw [hp, List.mem_filter]
  · rw [hp, hs.2.2.1]
    simpa using List.length_filter_le _ _
  · rw [hc, hs.2.2.2]
    simpa using List.length_filter_le _ _

/-- Closed witness for C6 on a concrete stream: one retained channel "1",
programmes for channels "1" and "2", channels "1" and "3", one foreign
token. -/
theorem claim_C6_witness :
    loadXMLTv [{ name := "c1", uri := "", tags := [("tvg-id", "1")], raw := "" }]
        [.programme ⟨"1", "p1"⟩, .programme ⟨"2", "p2"⟩, .channel ⟨"1", "c"⟩,
         .channel ⟨"3", "d"⟩, .other] =
      some ({ programmes := [⟨"1", "p1"⟩], channels := [⟨"1", "c"⟩] }, 2, 2) ∧
    ({ programmes := [⟨"1", "p1"⟩], channels := [⟨"1", "c"⟩] } : TVData).programmes.length ≤ 2 :=
  ⟨by decide,
   (claim_C6 [{ name := "c1", uri := "", tags := [("tvg-id", "1")], raw := "" }]
      [.programme ⟨"1", "p1"⟩, .programme ⟨"2", "p2"⟩, .channel ⟨"1", "c"⟩,
       .channel ⟨"3", "d"⟩, .other]
      ({ programmes := [⟨"1", "p1"⟩], channels := [⟨"1", "c"⟩] }, 2, 2)
      (by decide)).2.2.2.1⟩

/-! ## C1: a failed refresh cycle is not all-or-nothing -/

/-- Claim C1 names correct intended behaviour that `Refresh` does not
implement: `p.playlist` is assigned as soon as the playlist stage succeeds,
before any EPG stage runs.  Here the EPG retrieval fails, the cycle returns
an error, and yet the published playlist now reflects the failed cycle
while the EPG bytes and the refresh timestamp still belong to the previous
snapshot — a mixed-generation state observable through the read accessors. -/
theorem claim_C1_code_bug :
    let p0 : ProviderState :=
      { baseAddress := "", filters := [], playlist := some newPlaylistLoader,
        epg := none, epgData := some "OLD", lastRefresh := 5 }
    let inp : RefreshInput :=
      { iptv := some [{ name := "c1", uri := "u", tags := [("tvg-id", "1")], raw := "r" }],
        epgItems := none, now := 9 }
    (Refresh p0 inp).2 = false ∧
    (Refresh p0 inp).1.playlist ≠ p0.playlist ∧
    (Refresh p0 inp).1.epgData = p0.epgData ∧
    (Refresh p0 inp).1.lastRefresh = p0.lastRefresh := by
  decide

end ProxyTv
